import Mathlib

/-!
Shallow embedding of the `claudecli` repository's core pipeline:
codebase snapshots and diffing (`codebase_watcher.py`), codebase loading and
serialization (`load.py`), the multi-turn response gathering loop
(`ai_functions.py`), and file writing (`save.py`).

Python strings are modelled as Lean `String`; filesystem modification times
(`os.path.getmtime`, a float compared only for exact equality in the source)
are modelled as `Int`; Python dicts are modelled as insertion-ordered
association lists with in-place overwrite, and Python sets as lists with
membership-tested insertion.  The filesystem and the network/parser
collaborators are abstracted as function-valued parameters.
-/

/-- Python `sub in s` substring test helper: does `pat` occur as a prefix of `l`? -/
def listPrefixOf : List Char → List Char → Bool
  | [], _ => true
  | _ :: _, [] => false
  | a :: as, b :: bs => a == b && listPrefixOf as bs

/-- Python `needle in haystack` substring containment on character lists. -/
def listContainsSub : List Char → List Char → Bool
  | [], needle => needle.isEmpty
  | h :: t, needle => listPrefixOf needle (h :: t) || listContainsSub t needle

/-- Python `pat in s` substring containment on strings. -/
def strContains (s pat : String) : Bool :=
  listContainsSub s.data pat.data

/-- Python `s.endswith(suffix)`. -/
def pyEndsWith (s suffix : String) : Bool :=
  listPrefixOf suffix.data.reverse s.data.reverse

/-- Python `s.strip()`: remove leading and trailing whitespace. -/
def pyStrip (s : String) : String :=
  ⟨((s.data.dropWhile Char.isWhitespace).reverse.dropWhile Char.isWhitespace).reverse⟩

/-- Python `s.rstrip()`: remove trailing whitespace. -/
def pyRstrip (s : String) : String :=
  ⟨(s.data.reverse.dropWhile Char.isWhitespace).reverse⟩

/-- `str(Path(root) / name)` and `os.path.join(dir, name)`. -/
def pathJoin (root name : String) : String :=
  root ++ "/" ++ name

/-- `os.path.basename`: the part of the path after the last slash. -/
def baseNameAux : List Char → List Char → List Char
  | [], acc => acc.reverse
  | c :: rest, acc => if c == '/' then baseNameAux rest [] else baseNameAux rest (c :: acc)

/-- `os.path.basename(p)`. -/
def baseName (p : String) : String :=
  ⟨baseNameAux p.data []⟩

/-- `sep.join(parts)` (Python `str.join`). -/
def sepJoin (sep : String) : List String → String
  | [] => ""
  | [x] => x
  | x :: xs => x ++ sep ++ sepJoin sep xs

/-- Concatenation of a list of strings (repeated `+=` in the source). -/
def concatList : List String → String
  | [] => ""
  | x :: xs => x ++ concatList xs

/-- Python set `s.add(x)`: insert if not already present. -/
def insSet {α : Type} [DecidableEq α] (s : List α) (x : α) : List α :=
  if x ∈ s then s else s ++ [x]

/-- Lookup in a Python dict modelled as an insertion-ordered association list. -/
def dictLookup : List (String × Int) → String → Option Int
  | [], _ => none
  | kv :: rest, k => if kv.1 = k then some kv.2 else dictLookup rest k

/-- Lookup returning the LAST binding of a key (later entries win). -/
def dictLookupLast : List (String × Int) → String → Option Int
  | [], _ => none
  | kv :: rest, k =>
    match dictLookupLast rest k with
    | some v => some v
    | none => if kv.1 = k then some kv.2 else none

/-- Python dict `d[k] = v`: overwrite in place if present, else append. -/
def dictInsert : List (String × Int) → String → Int → List (String × Int)
  | [], k, v => [(k, v)]
  | kv :: rest, k, v => if kv.1 = k then (k, v) :: rest else kv :: dictInsert rest k v

/-- The key list of a dict. -/
def dictKeys (d : List (String × Int)) : List String :=
  d.map Prod.fst

/-- Python `{**a, **b}`: start from `a` and insert every entry of `b` in order. -/
def dictMergeRight (a b : List (String × Int)) : List (String × Int) :=
  b.foldl (fun d kv => dictInsert d kv.1 kv.2) a

/-- `CodebaseState` from `codebase_watcher.py`: relative path -> last-modified time. -/
structure CodebaseState where
  files : List (String × Int)
deriving DecidableEq

/-- `CodebaseState.__add__`: `combined_state.files = {**self.files, **other.files}`. -/
def CodebaseState.addState (a b : CodebaseState) : CodebaseState :=
  ⟨dictMergeRight a.files b.files⟩

/-- `FileUpdate` named tuple from `codebase_watcher.py`. -/
structure FileUpdate where
  file_path : String
  last_modified : Int
deriving DecidableEq

/-- `ChangedFiles` named tuple from `codebase_watcher.py`. -/
structure ChangedFiles where
  file_path : String
  content : String
deriving DecidableEq

/-- `CodebaseTransformation` from `codebase_watcher.py`: the three change sets. -/
structure CodebaseTransformation where
  additions : List String
  deletions : List String
  updates : List FileUpdate
deriving DecidableEq

/-- Abstract filesystem collaborator: `os.walk`, `os.path.getmtime`,
`os.path.exists`, `os.path.isdir`, `open(p).read()`, and whether one of the
fallback text encodings in `load.py` decodes the file. -/
structure FileSys where
  walkFrom : String → List (String × List String)
  mtimeOf : String → Int
  existsAt : String → Bool
  isDir : String → Bool
  readFile : String → String
  decodeOk : String → Bool

/-- Extension filter of `check_codebase`:
`any(file_name.endswith(f".{ext}") for ext in file_extensions) or not file_extensions`. -/
def matchesWatch (exts : List String) (fileName : String) : Bool :=
  exts.any (fun ext => pyEndsWith fileName ("." ++ ext)) || exts.isEmpty

/-- Extension filter of `load_codebase`:
`any(file_name.endswith(f".{ext}") for ext in extensions) or not (any(extensions))`
(`any(extensions)` is Python truthiness: some extension string is non-empty). -/
def matchesLoad (exts : List String) (fileName : String) : Bool :=
  exts.any (fun ext => pyEndsWith fileName ("." ++ ext)) || !(exts.any (fun ext => ext != ""))

/-- Per-file body of the `os.walk` loop in `check_codebase` (lines 144-154). -/
def checkStep (fs : FileSys) (st : CodebaseState)
    (acc : CodebaseTransformation × List ChangedFiles) (filePath : String) :
    CodebaseTransformation × List ChangedFiles :=
  match dictLookup st.files filePath with
  | none =>
    ({ acc.1 with additions := insSet acc.1.additions filePath },
      insSet acc.2 ⟨filePath, fs.readFile filePath⟩)
  | some recorded =>
    let lastModified := fs.mtimeOf filePath
    if lastModified ≠ recorded then
      ({ acc.1 with updates := insSet acc.1.updates ⟨filePath, lastModified⟩ },
        insSet acc.2 ⟨filePath, fs.readFile filePath⟩)
    else acc

/-- `check_codebase(codebase_location, file_extensions, codebase_state)`:
walk the tree (skipping roots containing `__pycache__`), classify each
matching file against the prior state, then mark as deleted every recorded
path that no longer exists on disk. -/
def checkCodebase (fs : FileSys) (loc : String) (exts : List String)
    (st : CodebaseState) : CodebaseTransformation × List ChangedFiles :=
  let walkResult := (fs.walkFrom loc).foldl
    (fun acc entry =>
      if !(strContains entry.1 "__pycache__") then
        entry.2.foldl
          (fun acc fileName =>
            if matchesWatch exts fileName then
              checkStep fs st acc (pathJoin entry.1 fileName)
            else acc)
          acc
      else acc)
    (⟨[], [], []⟩, [])
  let deletions := (dictKeys st.files).foldl
    (fun dels filePath => if fs.existsAt filePath then dels else insSet dels filePath)
    walkResult.1.deletions
  ({ walkResult.1 with deletions := deletions }, walkResult.2)

/-- The joined paths of the files visited and matched by the walk of
`check_codebase`: files under non-`__pycache__` roots whose names pass the
extension filter, joined to their walk root. -/
def walkedFiles (fs : FileSys) (loc : String) (exts : List String) : List String :=
  ((fs.walkFrom loc).filter (fun entry => !(strContains entry.1 "__pycache__"))).flatMap
    (fun entry => (entry.2.filter (matchesWatch exts)).map (pathJoin entry.1))

/-- `format_transformation`: human-readable description of a transformation,
with per-section headers, one `- path` line per file, and a final `strip()`. -/
def formatTransformation (t : CodebaseTransformation) : String :=
  pyStrip
    ((if t.additions.isEmpty then "" else
        "Added files:\n" ++ concatList (t.additions.map (fun fp => "- " ++ fp ++ "\n")) ++ "\n")
      ++ (if t.deletions.isEmpty then "" else
        "Deleted files:\n" ++ concatList (t.deletions.map (fun fp => "- " ++ fp ++ "\n")) ++ "\n")
      ++ (if t.updates.isEmpty then "" else
        "Updated files:\n" ++ concatList (t.updates.map (fun u => "- " ++ u.file_path ++ "\n")) ++ "\n"))

/-- The `Contents of file: ...` block emitted per changed file by `check_codebases`. -/
def changedFileBlock (c : ChangedFiles) : String :=
  "Contents of file: " ++ c.file_path ++ "\n\n" ++ c.content ++ "\n\n"

/-- `check_codebases(codebase_locations, codebase_states)`: run `check_codebase`
on each root with an EMPTY extension list (`check_codebase(location, [], state)`),
label each summary with `Codebase: location`, and concatenate; both outputs
are finally `strip()`ed. -/
def checkCodebases (fs : FileSys) (locs : List String) (states : List CodebaseState) :
    String × String :=
  let result := (locs.zip states).foldl
    (fun acc ls =>
      let checked := checkCodebase fs ls.1 [] ls.2
      (acc.1 ++ "Codebase: " ++ ls.1 ++ "\n" ++ formatTransformation checked.1 ++ "\n",
        acc.2 ++ concatList (checked.2.map changedFileBlock)))
    ("", "")
  (pyStrip result.1, pyStrip result.2)

/-- Spec-side definition, following the specification's words for the
multi-codebase diff: given `(root, extensions, previousSnapshot)` triples, run
the single-codebase diff per root HONOURING that root's extension filter,
label each root's summary with its root path, and concatenate the results. -/
def checkCodebasesSpec (fs : FileSys)
    (inputs : List (String × List String × CodebaseState)) : String × String :=
  let result := inputs.foldl
    (fun acc input =>
      let checked := checkCodebase fs input.1 input.2.1 input.2.2
      (acc.1 ++ "Codebase: " ++ input.1 ++ "\n" ++ formatTransformation checked.1 ++ "\n",
        acc.2 ++ concatList (checked.2.map changedFileBlock)))
    ("", "")
  (pyStrip result.1, pyStrip result.2)

/-- `Codebase` from `load.py`: concatenated contents plus loaded file paths. -/
structure Codebase where
  concatenated_contents : String
  file_paths : List String
deriving DecidableEq

/-- The two failure modes of `load_codebase`: `ValueError` for a bad root and
`FileNotFoundError` when no file name matches the extension filter. -/
inductive LoadError where
  | invalidPath
  | noMatchingFiles
deriving DecidableEq

/-- Accumulator of the walk loop inside `load_codebase`: the concatenated
contents string, the `matched_files_found` flag, and `codebase_files`. -/
structure LoadAcc where
  contents : String
  matched : Bool
  files : List String
deriving DecidableEq

/-- The `<file>` element rendered by `load_codebase` for one file. -/
def fileElement (fs : FileSys) (filePath : String) : String :=
  "<file>\n<path>" ++ filePath ++ "</path>\n<content>" ++ fs.readFile filePath
    ++ "</content>\n</file>\n"

/-- Per matched file body of the walk loop in `load_codebase` (lines 199-220):
set `matched_files_found`, then append the `<file>` element and record the
path when the full path avoids `__pycache__` and some encoding decodes it. -/
def loadStep (fs : FileSys) (acc : LoadAcc) (filePath : String) : LoadAcc :=
  let acc := { acc with matched := true }
  if !(strContains filePath "__pycache__") then
    if fs.decodeOk filePath then
      { acc with
          contents := acc.contents ++ fileElement fs filePath,
          files := acc.files ++ [filePath] }
    else acc
  else acc

/-- `load_codebase(base_path, extensions)`: raise `ValueError` for a missing or
non-directory root, walk and render matched files wrapped in
`<codebase_subfolder>`, and raise `FileNotFoundError` if no file name matched. -/
def loadCodebase (fs : FileSys) (basePath : String) (exts : List String) :
    Except LoadError Codebase :=
  if !(fs.existsAt basePath) || !(fs.isDir basePath) then
    .error .invalidPath
  else
    let walkResult := (fs.walkFrom basePath).foldl
      (fun acc entry =>
        entry.2.foldl
          (fun acc fileName =>
            if matchesLoad exts fileName then
              loadStep fs acc (pathJoin entry.1 fileName)
            else acc)
          acc)
      ⟨"<codebase_subfolder>\n", false, []⟩
    let contents := walkResult.contents ++ "</codebase_subfolder>\n"
    if !walkResult.matched then
      .error .noMatchingFiles
    else
      .ok ⟨contents, walkResult.files⟩

/-- The walk-root-joined paths of all files matched by `load_codebase`'s
extension filter (before the `__pycache__` and encoding checks). -/
def loadWalkedMatched (fs : FileSys) (basePath : String) (exts : List String) : List String :=
  (fs.walkFrom basePath).flatMap
    (fun entry => (entry.2.filter (matchesLoad exts)).map (pathJoin entry.1))

/-- The paths actually recorded by `load_codebase`: matched files outside
`__pycache__` that some encoding decodes, each one the join of its walk root
and file name (the base path prefix is retained, paths are not relativized). -/
def loadIncludedPaths (fs : FileSys) (basePath : String) (exts : List String) : List String :=
  (loadWalkedMatched fs basePath exts).filter
    (fun fp => !(strContains fp "__pycache__") && fs.decodeOk fp)

/-- The full `<codebase_subfolder>` block that `load_codebase` builds. -/
def renderSubfolder (fs : FileSys) (basePath : String) (exts : List String) : String :=
  "<codebase_subfolder>\n"
    ++ concatList ((loadIncludedPaths fs basePath exts).map (fileElement fs))
    ++ "</codebase_subfolder>\n"

/-- `FileData` parser output triple (path, contents, change description). -/
structure FileData where
  relative_path : String
  file_contents : String
  changes : String
deriving DecidableEq

/-- `ResponseContent`: concatenated raw text plus parsed file data. -/
structure ResponseContent where
  content_string : String
  file_data_list : List FileData
deriving DecidableEq

/-- Result of `parse_ai_responses` (the `parseaicode` collaborator). -/
structure ParseResult where
  finished : Bool
  file_data_list : Option (List FileData)

/-- One `{role, content}` message of the conversation. -/
structure ChatMessage where
  role : String
  content : String
deriving DecidableEq

/-- Outcome of one `client.messages.create` call: a connection error, a
timeout, or a reply carrying a list of content-block texts. -/
inductive SendResult where
  | connectionError
  | timeoutError
  | ok (content : List String)

/-- The separator `gather_ai_responses` joins per-turn responses with. -/
def turnSeparator : String :=
  "\n-------------------------------\n"

/-- The turn loop of `gather_ai_responses`, indexed by remaining turns.  The
`send` argument gives the network outcome of each successive call and `parse`
stands for `parse_ai_responses`.  State: the turn index, the `responses`
list, the `concatenated_responses` string (assigned only in the returning
branch of the source, so still `""` when the turn budget runs out), and the
caller's `messages` list (mutated in place at index 1 for continuations; the
final value is returned alongside the result to track that mutation). -/
def gatherGo (send : Nat → SendResult) (parse : List String → Bool → ParseResult) :
    Nat → Nat → List String → String → List ChatMessage →
    Option ResponseContent × List ChatMessage
  | 0, _, _, concatenated, messages => (some ⟨concatenated, []⟩, messages)
  | turnsLeft + 1, turnIdx, responses, concatenated, messages =>
    match send turnIdx with
    | .connectionError => (none, messages)
    | .timeoutError => (none, messages)
    | .ok content =>
      match content with
      | [] =>
        match (parse responses true).file_data_list with
        | none => (some ⟨sepJoin turnSeparator responses, []⟩, messages)
        | some l => (some ⟨sepJoin turnSeparator responses, l⟩, messages)
      | contentString :: _ =>
        if contentString = "" then (none, messages)
        else
          let responses := responses ++ [contentString]
          let parseResult := parse responses false
          if parseResult.finished then
            match parseResult.file_data_list with
            | none => (some ⟨sepJoin turnSeparator responses, []⟩, messages)
            | some l => (some ⟨sepJoin turnSeparator responses, l⟩, messages)
          else
            let m1 := messages.getD 1 ⟨"", ""⟩
            let messages := messages.set 1 ⟨m1.role, pyRstrip (m1.content ++ contentString)⟩
            gatherGo send parse turnsLeft (turnIdx + 1) responses concatenated messages

/-- `gather_ai_responses(client, model, messages, system_prompt)` with the
network call and the parser abstracted: up to `max_turns = 10` turns starting
from empty `responses` and `concatenated_responses = ""`. -/
def gatherAiResponses (send : Nat → SendResult)
    (parse : List String → Bool → ParseResult) (messages : List ChatMessage) :
    Option ResponseContent × List ChatMessage :=
  gatherGo send parse 10 0 [] "" messages

/-- One step of `xml.sax.saxutils.unescape` on a character list. -/
def unescapeChars : List Char → List Char
  | '&' :: 'a' :: 'm' :: 'p' :: ';' :: rest => '&' :: unescapeChars rest
  | '&' :: 'l' :: 't' :: ';' :: rest => '<' :: unescapeChars rest
  | '&' :: 'g' :: 't' :: ';' :: rest => '>' :: unescapeChars rest
  | c :: rest => c :: unescapeChars rest
  | [] => []

/-- `xml.sax.saxutils.unescape` applied by `write_files` before writing. -/
def xmlUnescape (s : String) : String :=
  ⟨unescapeChars s.data⟩

/-- State threaded through `write_files`: the set of paths for which
`os.path.exists` answers true, the files written (path and unescaped
contents, in order), the skip notices, and `num_written`. -/
structure WriteState where
  existing : List String
  written : List (String × String)
  skipped : List String
  count : Nat
deriving DecidableEq

/-- Body of the `write_files` loop for one `FileData` entry (lines 159-179):
join the output directory with the BASENAME of the proposed path, create the
output directory if needed, skip existing targets unless forced, otherwise
write the unescaped contents and count the write. -/
def writeFileStep (outputDir : String) (force : Bool) (st : WriteState)
    (fd : FileData) : WriteState :=
  let fileName := baseName fd.relative_path
  let outputFile := pathJoin outputDir fileName
  let st := if outputDir ∈ st.existing then st else { st with existing := insSet st.existing outputDir }
  if force = false ∧ outputFile ∈ st.existing then
    { st with skipped := st.skipped ++ [outputFile] }
  else
    { st with
        existing := insSet st.existing outputFile,
        written := st.written ++ [(outputFile, xmlUnescape fd.file_contents)],
        count := st.count + 1 }

/-- `write_files(output_dir, file_data, force_overwrite)` run against an
initial set of existing paths; the source returns the final `count`. -/
def writeFiles (existing0 : List String) (outputDir : String)
    (fileData : List FileData) (force : Bool) : WriteState :=
  fileData.foldl (writeFileStep outputDir force) ⟨existing0, [], [], 0⟩

/-- The empty prior codebase state. -/
def stEmpty : CodebaseState := ⟨[]⟩

/-- Concrete filesystem: one directory `/r` holding `a.py` (content `content`,
mtime 5); only `/r/a.py` exists on disk. -/
def fsW : FileSys where
  walkFrom := fun root => if root = "/r" then [("/r", ["a.py"])] else []
  mtimeOf := fun _ => 5
  existsAt := fun p => p == "/r/a.py"
  isDir := fun p => p == "/r"
  readFile := fun _ => "content"
  decodeOk := fun _ => true

/-- Concrete filesystem for the load model: directory `/base` holding `a.py`
with content `print(1)`. -/
def fsC3 : FileSys where
  walkFrom := fun root => if root = "/base" then [("/base", ["a.py"])] else []
  mtimeOf := fun _ => 1
  existsAt := fun p => p == "/base" || p == "/base/a.py"
  isDir := fun p => p == "/base"
  readFile := fun _ => "print(1)"
  decodeOk := fun _ => true

/-- The `Codebase` value `load_codebase` produces on `fsC3` at `/base`. -/
def cbC3 : Codebase :=
  ⟨"<codebase_subfolder>\n<file>\n<path>/base/a.py</path>\n<content>print(1)</content>\n</file>\n</codebase_subfolder>\n",
    ["/base/a.py"]⟩

/-- Concrete filesystem: `/d` is a valid, existing directory containing no
files at all. -/
def fsC4 : FileSys where
  walkFrom := fun root => if root = "/d" then [("/d", [])] else []
  mtimeOf := fun _ => 0
  existsAt := fun p => p == "/d"
  isDir := fun p => p == "/d"
  readFile := fun _ => ""
  decodeOk := fun _ => true

/-- Concrete filesystem: directory `/r` holding a single `b.txt` with content
`hello`. -/
def fsC5 : FileSys where
  walkFrom := fun root => if root = "/r" then [("/r", ["b.txt"])] else []
  mtimeOf := fun _ => 3
  existsAt := fun p => p == "/r" || p == "/r/b.txt"
  isDir := fun p => p == "/r"
  readFile := fun _ => "hello"
  decodeOk := fun _ => true

/-- Concrete codebase states for exercising the `+` merge. -/
def stA : CodebaseState := ⟨[("x", 1), ("y", 2)]⟩

/-- Second concrete state; collides with `stA` on key `x`. -/
def stB : CodebaseState := ⟨[("x", 7)]⟩

/-- Third concrete state. -/
def stC : CodebaseState := ⟨[("z", 3)]⟩

/-- Network oracle that answers every turn with the single text block `A`. -/
def sendAlwaysA : Nat → SendResult := fun _ => .ok ["A"]

/-- Network oracle that succeeds with the text block `A` on the first call
and fails with a timeout on every later call. -/
def sendOkThenErr : Nat → SendResult :=
  fun turnIdx => if turnIdx = 0 then .ok ["A"] else .timeoutError

/-- Parser oracle that never finishes and never yields file data. -/
def parseNever : List String → Bool → ParseResult := fun _ _ => ⟨false, none⟩

/-- The two-message conversation shape `gather_ai_responses` is called with. -/
def msgsTwo : List ChatMessage := [⟨"user", "hi"⟩, ⟨"assistant", ""⟩]

theorem mem_insSet {α : Type} [DecidableEq α] (s : List α) (x y : α) :
    x ∈ insSet s y ↔ x ∈ s ∨ x = y := by
  unfold insSet
  by_cases h : y ∈ s
  · simp only [if_pos h]
    constructor
    · exact Or.inl
    · rintro (hx | rfl)
      · exact hx
      · exact h
  · simp [if_neg h]

theorem dictKeys_cons (kv : String × Int) (rest : List (String × Int)) :
    dictKeys (kv :: rest) = kv.1 :: dictKeys rest := rfl

theorem dictLookup_insert (k : String) (v : Int) :
    ∀ (d : List (String × Int)) (k' : String),
      dictLookup (dictInsert d k v) k' = if k = k' then some v else dictLookup d k' := by
  intro d
  induction d with
  | nil =>
    intro k'
    simp [dictInsert, dictLookup]
  | cons kv rest ih =>
    intro k'
    by_cases h : kv.1 = k
    · by_cases hk : k = k'
      · simp [dictInsert, dictLookup, h, hk]
      · have h1 : kv.1 ≠ k' := by rw [h]; exact hk
        simp [dictInsert, dictLookup, h, hk, h1]
    · by_cases h1 : kv.1 = k'
      · have hk : k ≠ k' := by
          intro he
          exact h (by rw [he, h1])
        have hk' : k' ≠ k := fun he => hk he.symm
        simp [dictInsert, dictLookup, h, h1, hk, hk']
      · simp [dictInsert, dictLookup, h, h1, ih]

theorem dictLookup_eq_none_iff : ∀ (d : List (String × Int)) (k : String),
    dictLookup d k = none ↔ k ∉ dictKeys d := by
  intro d
  induction d with
  | nil => intro k; simp [dictLookup, dictKeys]
  | cons kv rest ih =>
    intro k
    rw [dictKeys_cons, List.mem_cons]
    by_cases h : kv.1 = k
    · simp [dictLookup, h]
    · have hne : k ≠ kv.1 := fun he => h he.symm
      simp only [dictLookup, if_neg h, ih k]
      constructor
      · intro hk
        intro hor
        rcases hor with he | hm
        · exact hne he
        · exact hk hm
      · intro hor hm
        exact hor (Or.inr hm)

theorem dictLookupLast_eq_none_iff : ∀ (d : List (String × Int)) (k : String),
    dictLookupLast d k = none ↔ k ∉ dictKeys d := by
  intro d
  induction d with
  | nil => intro k; simp [dictLookupLast, dictKeys]
  | cons kv rest ih =>
    intro k
    rw [dictKeys_cons, List.mem_cons]
    rcases hr : dictLookupLast rest k with _ | v
    · have hrest : k ∉ dictKeys rest := (ih k).mp hr
      by_cases h : kv.1 = k
      · simp only [dictLookupLast, hr, if_pos h]
        simp [h.symm]
      · have hne : k ≠ kv.1 := fun he => h he.symm
        simp [dictLookupLast, hr, h, hne, hrest]
    · have hrest : k ∈ dictKeys rest := by
        by_contra hk
        rw [← ih k] at hk
        rw [hr] at hk
        cases hk
      simp [dictLookupLast, hr, hrest]

theorem dictLookup_mergeRight : ∀ (b a : List (String × Int)) (k : String),
    dictLookup (dictMergeRight a b) k =
      match dictLookupLast b k with
      | some v => some v
      | none => dictLookup a k := by
  intro b
  induction b with
  | nil => intro a k; simp [dictMergeRight, dictLookupLast]
  | cons kv rest ih =>
    intro a k
    have hstep : dictMergeRight a (kv :: rest) = dictMergeRight (dictInsert a kv.1 kv.2) rest := rfl
    rw [hstep, ih]
    rcases hr : dictLookupLast rest k with _ | v
    · simp only [dictLookupLast, hr, dictLookup_insert]
      by_cases h : kv.1 = k
      · simp [h]
      · simp [h]
    · simp [dictLookupLast, hr]

theorem dictLookupLast_eq_dictLookup :
    ∀ (d : List (String × Int)), (dictKeys d).Nodup →
      ∀ (k : String), dictLookupLast d k = dictLookup d k := by
  intro d
  induction d with
  | nil => intro _ k; simp [dictLookupLast, dictLookup]
  | cons kv rest ih =>
    intro hnd k
    rw [dictKeys_cons, List.nodup_cons] at hnd
    have hmem : kv.1 ∉ dictKeys rest := hnd.1
    have hrest : (dictKeys rest).Nodup := hnd.2
    rcases hr : dictLookupLast rest k with _ | v
    · have hnone : dictLookup rest k = none := by
        rw [dictLookup_eq_none_iff]
        rw [dictLookupLast_eq_none_iff] at hr
        exact hr
      simp [dictLookupLast, dictLookup, hr, hnone]
    · have hkmem : k ∈ dictKeys rest := by
        by_contra hk
        rw [← dictLookupLast_eq_none_iff] at hk
        rw [hr] at hk
        cases hk
      have hne : kv.1 ≠ k := fun he => hmem (he ▸ hkmem)
      have hlook : dictLookup rest k = some v := by
        rw [← ih hrest k]
        exact hr
      simp [dictLookupLast, dictLookup, hr, hne, hlook]

theorem mem_dictKeys_iff (d : List (String × Int)) (k : String) :
    k ∈ dictKeys d ↔ dictLookup d k ≠ none := by
  rw [Ne, dictLookup_eq_none_iff]
  exact not_not.symm

theorem dictKeys_insert (k : String) (v : Int) :
    ∀ (d : List (String × Int)),
      dictKeys (dictInsert d k v) =
        if k ∈ dictKeys d then dictKeys d else dictKeys d ++ [k] := by
  intro d
  induction d with
  | nil => simp [dictInsert, dictKeys]
  | cons kv rest ih =>
    by_cases h : kv.1 = k
    · have hins : dictInsert (kv :: rest) k v = (k, v) :: rest := by
        simp [dictInsert, h]
      have hmem : k ∈ kv.1 :: dictKeys rest := by
        rw [← h]
        exact List.mem_cons_self _ _
      rw [hins, dictKeys_cons, dictKeys_cons, if_pos hmem, h]
    · have hne : k ≠ kv.1 := fun he => h he.symm
      by_cases hm : k ∈ dictKeys rest
      · simp [dictInsert, dictKeys_cons, h, hne, hm, ih]
      · simp [dictInsert, dictKeys_cons, h, hne, hm, ih]

theorem dictInsert_nodupKeys (k : String) (v : Int) (d : List (String × Int))
    (h : (dictKeys d).Nodup) : (dictKeys (dictInsert d k v)).Nodup := by
  rw [dictKeys_insert]
  by_cases hm : k ∈ dictKeys d
  · simpa [hm] using h
  · simp [hm, List.nodup_append, h]

theorem dictMergeRight_nodupKeys :
    ∀ (b a : List (String × Int)), (dictKeys a).Nodup →
      (dictKeys (dictMergeRight a b)).Nodup := by
  intro b
  induction b with
  | nil => intro a ha; exact ha
  | cons kv rest ih =>
    intro a ha
    exact ih (dictInsert a kv.1 kv.2) (dictInsert_nodupKeys kv.1 kv.2 a ha)

/-- C8: `CodebaseState.__add__` produces exactly the union of the key sets,
resolves key collisions in favour of the right operand's timestamp, and is
associative (as equality of the resulting path-to-timestamp mappings, which
is Python `dict` equality). -/
theorem codebaseState_add_spec (a b c : CodebaseState)
    (hb : (dictKeys b.files).Nodup) (hc : (dictKeys c.files).Nodup) :
    (∀ k, k ∈ dictKeys ((a.addState b).files) ↔ k ∈ dictKeys a.files ∨ k ∈ dictKeys b.files)
  ∧ (∀ k, k ∈ dictKeys a.files → k ∈ dictKeys b.files →
      dictLookup ((a.addState b).files) k = dictLookup b.files k)
  ∧ (∀ k, dictLookup (((a.addState b).addState c).files) k
        = dictLookup ((a.addState (b.addState c)).files) k) := by
  refine ⟨?_, ?_, ?_⟩
  · intro k
    rw [mem_dictKeys_iff, mem_dictKeys_iff, mem_dictKeys_iff]
    show dictLookup (dictMergeRight a.files b.files) k ≠ none ↔ _
    rw [dictLookup_mergeRight]
    rcases hl : dictLookupLast b.files k with _ | v
    · have hnb : dictLookup b.files k = none := by
        rw [dictLookup_eq_none_iff]
        rw [dictLookupLast_eq_none_iff] at hl
        exact hl
      simp [hnb]
    · have hb' : dictLookup b.files k ≠ none := by
        rw [← dictLookupLast_eq_dictLookup b.files hb k, hl]
        simp
      simp [hb']
  · intro k _ hkb
    show dictLookup (dictMergeRight a.files b.files) k = _
    rw [dictLookup_mergeRight, dictLookupLast_eq_dictLookup b.files hb k]
    rw [mem_dictKeys_iff] at hkb
    rcases hlb : dictLookup b.files k with _ | v
    · exact absurd hlb hkb
    · rfl
  · intro k
    have hbc : (dictKeys (dictMergeRight b.files c.files)).Nodup :=
      dictMergeRight_nodupKeys c.files b.files hb
    show dictLookup (dictMergeRight (dictMergeRight a.files b.files) c.files) k
        = dictLookup (dictMergeRight a.files (dictMergeRight b.files c.files)) k
    rw [dictLookup_mergeRight, dictLookup_mergeRight, dictLookup_mergeRight,
      dictLookupLast_eq_dictLookup _ hbc k, dictLookup_mergeRight,
      dictLookupLast_eq_dictLookup b.files hb k, dictLookupLast_eq_dictLookup c.files hc k]
    rcases dictLookup c.files k with _ | vc
    · rcases dictLookup b.files k with _ | vb
      · rfl
      · rfl
    · rfl

/-- Witness for `codebaseState_add_spec` at concrete colliding states:
`stA + stB` takes `stB`'s timestamp on the shared key `x`. -/
theorem codebaseState_add_spec_witness :
    dictLookup ((stA.addState stB).files) "x" = dictLookup stB.files "x" :=
  (codebaseState_add_spec stA stB stC (by decide) (by decide)).2.1 "x" (by decide) (by decide)

theorem foldl_if_filter {α γ : Type} (p : α → Bool) (f : γ → α → γ) :
    ∀ (l : List α) (init : γ),
      l.foldl (fun acc a => if p a then f acc a else acc) init = (l.filter p).foldl f init := by
  intro l
  induction l with
  | nil => intro init; rfl
  | cons a t ih =>
    intro init
    by_cases h : p a = true
    · simp [List.filter_cons, h, ih]
    · simp [List.filter_cons, h, ih]

theorem foldl_names_flatten {γ : Type} (q : String → Bool) (f : γ → String → γ) (root : String) :
    ∀ (names : List String) (init : γ),
      names.foldl (fun acc n => if q n then f acc (pathJoin root n) else acc) init
        = ((names.filter q).map (pathJoin root)).foldl f init := by
  intro names
  induction names with
  | nil => intro init; rfl
  | cons n t ih =>
    intro init
    by_cases h : q n = true
    · simp [List.filter_cons, h, ih]
    · simp [List.filter_cons, h, ih]

theorem foldl_flatMap {α γ : Type} (g : α → List String) (f : γ → String → γ) :
    ∀ (l : List α) (init : γ),
      l.foldl (fun acc e => (g e).foldl f acc) init = (l.flatMap g).foldl f init := by
  intro l
  induction l with
  | nil => intro init; rfl
  | cons e t ih =>
    intro init
    simp [List.flatMap_cons, List.foldl_append, ih]

theorem checkCodebase_walk_flatten (fs : FileSys) (st : CodebaseState)
    (loc : String) (exts : List String)
    (init : CodebaseTransformation × List ChangedFiles) :
    (fs.walkFrom loc).foldl
      (fun acc entry =>
        if !(strContains entry.1 "__pycache__") then
          entry.2.foldl
            (fun acc fileName =>
              if matchesWatch exts fileName then
                checkStep fs st acc (pathJoin entry.1 fileName)
              else acc)
            acc
        else acc)
      init
      = (walkedFiles fs loc exts).foldl (checkStep fs st) init := by
  have h1 : (fs.walkFrom loc).foldl
      (fun acc entry =>
        if !(strContains entry.1 "__pycache__") then
          entry.2.foldl
            (fun acc fileName =>
              if matchesWatch exts fileName then
                checkStep fs st acc (pathJoin entry.1 fileName)
              else acc)
            acc
        else acc)
      init
      = (fs.walkFrom loc).foldl
        (fun acc entry =>
          if !(strContains entry.1 "__pycache__") then
            ((entry.2.filter (matchesWatch exts)).map (pathJoin entry.1)).foldl
              (checkStep fs st) acc
          else acc)
        init := by
    congr 1
    funext acc entry
    by_cases h : strContains entry.1 "__pycache__"
    · simp [h]
    · simp [h, foldl_names_flatten (matchesWatch exts) (checkStep fs st) entry.1]
  rw [h1]
  have h2 := foldl_if_filter (fun entry => !(strContains entry.1 "__pycache__"))
    (fun (acc : CodebaseTransformation × List ChangedFiles) (entry : String × List String) =>
      ((entry.2.filter (matchesWatch exts)).map (pathJoin entry.1)).foldl (checkStep fs st) acc)
    (fs.walkFrom loc) init
  rw [h2]
  exact foldl_flatMap
    (fun entry => (entry.2.filter (matchesWatch exts)).map (pathJoin entry.1))
    (checkStep fs st)
    ((fs.walkFrom loc).filter (fun entry => !(strContains entry.1 "__pycache__")))
    init

theorem checkFold_deletions (fs : FileSys) (st : CodebaseState) :
    ∀ (l : List String) (acc : CodebaseTransformation × List ChangedFiles),
      (l.foldl (checkStep fs st) acc).1.deletions = acc.1.deletions := by
  intro l
  induction l with
  | nil => intro acc; rfl
  | cons a t ih =>
    intro acc
    rw [List.foldl_cons, ih]
    unfold checkStep
    rcases dictLookup st.files a with _ | recorded
    · rfl
    · by_cases h : fs.mtimeOf a ≠ recorded
      · simp [h]
      · simp [h]

theorem checkStep_deletions (fs : FileSys) (st : CodebaseState)
    (acc : CodebaseTransformation × List ChangedFiles) (a : String) :
    (checkStep fs st acc a).1.deletions = acc.1.deletions := by
  unfold checkStep
  rcases dictLookup st.files a with _ | recorded
  · rfl
  · by_cases hm : fs.mtimeOf a ≠ recorded
    · simp [hm]
    · simp [hm]

theorem checkStep_additions (fs : FileSys) (st : CodebaseState)
    (acc : CodebaseTransformation × List ChangedFiles) (a : String) :
    (checkStep fs st acc a).1.additions
      = match dictLookup st.files a with
        | none => insSet acc.1.additions a
        | some _ => acc.1.additions := by
  unfold checkStep
  rcases h : dictLookup st.files a with _ | recorded
  · simp
  · by_cases hm : fs.mtimeOf a ≠ recorded
    · simp [hm]
    · simp [hm]

theorem checkStep_updates (fs : FileSys) (st : CodebaseState)
    (acc : CodebaseTransformation × List ChangedFiles) (a : String) :
    (checkStep fs st acc a).1.updates
      = match dictLookup st.files a with
        | none => acc.1.updates
        | some recorded =>
          if fs.mtimeOf a ≠ recorded then insSet acc.1.updates ⟨a, fs.mtimeOf a⟩
          else acc.1.updates := by
  unfold checkStep
  rcases h : dictLookup st.files a with _ | recorded
  · simp
  · by_cases hm : fs.mtimeOf a ≠ recorded
    · simp [hm]
    · simp [hm]

theorem checkStep_changed (fs : FileSys) (st : CodebaseState)
    (acc : CodebaseTransformation × List ChangedFiles) (a : String) :
    (checkStep fs st acc a).2
      = match dictLookup st.files a with
        | none => insSet acc.2 ⟨a, fs.readFile a⟩
        | some recorded =>
          if fs.mtimeOf a ≠ recorded then insSet acc.2 ⟨a, fs.readFile a⟩
          else acc.2 := by
  unfold checkStep
  rcases h : dictLookup st.files a with _ | recorded
  · simp
  · by_cases hm : fs.mtimeOf a ≠ recorded
    · simp [hm]
    · simp [hm]

theorem checkFold_additions (fs : FileSys) (st : CodebaseState) :
    ∀ (l : List String) (acc : CodebaseTransformation × List ChangedFiles) (fp : String),
      fp ∈ (l.foldl (checkStep fs st) acc).1.additions ↔
        fp ∈ acc.1.additions ∨ (fp ∈ l ∧ dictLookup st.files fp = none) := by
  intro l
  induction l with
  | nil => intro acc fp; simp
  | cons a t ih =>
    intro acc fp
    rw [List.foldl_cons, ih, checkStep_additions]
    rcases h : dictLookup st.files a with _ | recorded
    · simp only [h, mem_insSet, List.mem_cons]
      constructor
      · rintro ((hm | rfl) | ⟨hmt, hnone⟩)
        · exact Or.inl hm
        · exact Or.inr ⟨Or.inl rfl, h⟩
        · exact Or.inr ⟨Or.inr hmt, hnone⟩
      · rintro (hm | ⟨rfl | hmt, hnone⟩)
        · exact Or.inl (Or.inl hm)
        · exact Or.inl (Or.inr rfl)
        · exact Or.inr ⟨hmt, hnone⟩
    · simp only [h, List.mem_cons]
      constructor
      · rintro (hm | ⟨hmt, hnone⟩)
        · exact Or.inl hm
        · exact Or.inr ⟨Or.inr hmt, hnone⟩
      · rintro (hm | ⟨rfl | hmt, hnone⟩)
        · exact Or.inl hm
        · rw [h] at hnone; cases hnone
        · exact Or.inr ⟨hmt, hnone⟩

theorem checkFold_updates (fs : FileSys) (st : CodebaseState) :
    ∀ (l : List String) (acc : CodebaseTransformation × List ChangedFiles) (u : FileUpdate),
      u ∈ (l.foldl (checkStep fs st) acc).1.updates ↔
        u ∈ acc.1.updates ∨
          (u.file_path ∈ l ∧ u.last_modified = fs.mtimeOf u.file_path ∧
            ∃ recorded, dictLookup st.files u.file_path = some recorded ∧
              fs.mtimeOf u.file_path ≠ recorded) := by
  intro l
  induction l with
  | nil => intro acc u; simp
  | cons a t ih =>
    intro acc u
    rw [List.foldl_cons, ih, checkStep_updates]
    rcases h : dictLookup st.files a with _ | recorded
    · simp only [h, List.mem_cons]
      constructor
      · rintro (hm | ⟨hmt, hrest⟩)
        · exact Or.inl hm
        · exact Or.inr ⟨Or.inr hmt, hrest⟩
      · rintro (hm | ⟨rfl | hmt, hlm, r, hr, hne⟩)
        · exact Or.inl hm
        · rw [h] at hr; cases hr
        · exact Or.inr ⟨hmt, hlm, r, hr, hne⟩
    · by_cases hm : fs.mtimeOf a ≠ recorded
      · simp only [h, if_pos hm, mem_insSet, List.mem_cons]
        constructor
        · rintro ((hmem | rfl) | ⟨hmt, hrest⟩)
          · exact Or.inl hmem
          · exact Or.inr ⟨Or.inl rfl, rfl, recorded, h, hm⟩
          · exact Or.inr ⟨Or.inr hmt, hrest⟩
        · rintro (hmem | ⟨ha, hlm, r, hr, hne⟩)
          · exact Or.inl (Or.inl hmem)
          · rcases ha with rfl | hmt
            · rcases u with ⟨up, ul⟩
              simp only at hlm hr
              exact Or.inl (Or.inr (by rw [hlm]))
            · exact Or.inr ⟨hmt, hlm, r, hr, hne⟩
      · simp only [h, if_neg hm, List.mem_cons]
        constructor
        · rintro (hmem | ⟨hmt, hrest⟩)
          · exact Or.inl hmem
          · exact Or.inr ⟨Or.inr hmt, hrest⟩
        · rintro (hmem | ⟨ha, hlm, r, hr, hne⟩)
          · exact Or.inl hmem
          · rcases ha with rfl | hmt
            · rw [h] at hr
              cases hr
              exact absurd hne hm
            · exact Or.inr ⟨hmt, hlm, r, hr, hne⟩

theorem checkFold_changed (fs : FileSys) (st : CodebaseState) :
    ∀ (l : List String) (acc : CodebaseTransformation × List ChangedFiles) (c : ChangedFiles),
      c ∈ (l.foldl (checkStep fs st) acc).2 ↔
        c ∈ acc.2 ∨
          (c.file_path ∈ l ∧ c.content = fs.readFile c.file_path ∧
            (dictLookup st.files c.file_path = none ∨
              ∃ recorded, dictLookup st.files c.file_path = some recorded ∧
                fs.mtimeOf c.file_path ≠ recorded)) := by
  intro l
  induction l with
  | nil => intro acc c; simp
  | cons a t ih =>
    intro acc c
    rw [List.foldl_cons, ih, checkStep_changed]
    rcases h : dictLookup st.files a with _ | recorded
    · simp only [h, mem_insSet, List.mem_cons]
      constructor
      · rintro ((hmem | rfl) | ⟨hmt, hrest⟩)
        · exact Or.inl hmem
        · exact Or.inr ⟨Or.inl rfl, rfl, Or.inl h⟩
        · exact Or.inr ⟨Or.inr hmt, hrest⟩
      · rintro (hmem | ⟨ha, hct, hcase⟩)
        · exact Or.inl (Or.inl hmem)
        · rcases ha with rfl | hmt
          · rcases c with ⟨cp, cc⟩
            simp only at hct
            exact Or.inl (Or.inr (by rw [hct]))
          · exact Or.inr ⟨hmt, hct, hcase⟩
    · by_cases hm : fs.mtimeOf a ≠ recorded
      · simp only [h, if_pos hm, mem_insSet, List.mem_cons]
        constructor
        · rintro ((hmem | rfl) | ⟨hmt, hrest⟩)
          · exact Or.inl hmem
          · exact Or.inr ⟨Or.inl rfl, rfl, Or.inr ⟨recorded, h, hm⟩⟩
          · exact Or.inr ⟨Or.inr hmt, hrest⟩
        · rintro (hmem | ⟨ha, hct, hcase⟩)
          · exact Or.inl (Or.inl hmem)
          · rcases ha with rfl | hmt
            · rcases c with ⟨cp, cc⟩
              simp only at hct
              exact Or.inl (Or.inr (by rw [hct]))
            · exact Or.inr ⟨hmt, hct, hcase⟩
      · simp only [h, if_neg hm, List.mem_cons]
        constructor
        · rintro (hmem | ⟨hmt, hrest⟩)
          · exact Or.inl hmem
          · exact Or.inr ⟨Or.inr hmt, hrest⟩
        · rintro (hmem | ⟨ha, hct, hcase⟩)
          · exact Or.inl hmem
          · rcases ha with rfl | hmt
            · rcases hcase with hnone | ⟨r, hr, hne⟩
              · rw [h] at hnone; cases hnone
              · rw [h] at hr
                cases hr
                exact absurd hne hm
            · exact Or.inr ⟨hmt, hct, hcase⟩

theorem delFold_mem (fs : FileSys) :
    ∀ (l : List String) (dels : List String) (fp : String),
      fp ∈ l.foldl
          (fun dels filePath => if fs.existsAt filePath then dels else insSet dels filePath)
          dels ↔
        fp ∈ dels ∨ (fp ∈ l ∧ fs.existsAt fp = false) := by
  intro l
  induction l with
  | nil => intro dels fp; simp
  | cons a t ih =>
    intro dels fp
    rw [List.foldl_cons, ih]
    by_cases h : fs.existsAt a = true
    · simp only [if_pos h, List.mem_cons]
      constructor
      · rintro (hmem | ⟨hmt, hfalse⟩)
        · exact Or.inl hmem
        · exact Or.inr ⟨Or.inr hmt, hfalse⟩
      · rintro (hmem | ⟨rfl | hmt, hfalse⟩)
        · exact Or.inl hmem
        · rw [h] at hfalse; cases hfalse
        · exact Or.inr ⟨hmt, hfalse⟩
    · have hfa : fs.existsAt a = false := by
        cases hx : fs.existsAt a
        · rfl
        · exact absurd hx h
      simp only [if_neg h, mem_insSet, List.mem_cons]
      constructor
      · rintro ((hmem | rfl) | ⟨hmt, hfalse⟩)
        · exact Or.inl hmem
        · exact Or.inr ⟨Or.inl rfl, hfa⟩
        · exact Or.inr ⟨Or.inr hmt, hfalse⟩
      · rintro (hmem | ⟨rfl | hmt, hfalse⟩)
        · exact Or.inl (Or.inl hmem)
        · exact Or.inl (Or.inr rfl)
        · exact Or.inr ⟨hmt, hfalse⟩

theorem checkCodebase_additions_iff (fs : FileSys) (loc : String) (exts : List String)
    (st : CodebaseState) (fp : String) :
    fp ∈ (checkCodebase fs loc exts st).1.additions ↔
      fp ∈ walkedFiles fs loc exts ∧ dictLookup st.files fp = none := by
  simp only [checkCodebase]
  rw [checkCodebase_walk_flatten, checkFold_additions]
  simp

theorem checkCodebase_updates_iff (fs : FileSys) (loc : String) (exts : List String)
    (st : CodebaseState) (u : FileUpdate) :
    u ∈ (checkCodebase fs loc exts st).1.updates ↔
      u.file_path ∈ walkedFiles fs loc exts ∧
        u.last_modified = fs.mtimeOf u.file_path ∧
        ∃ recorded, dictLookup st.files u.file_path = some recorded ∧
          fs.mtimeOf u.file_path ≠ recorded := by
  simp only [checkCodebase]
  rw [checkCodebase_walk_flatten, checkFold_updates]
  simp

theorem checkCodebase_changed_iff (fs : FileSys) (loc : String) (exts : List String)
    (st : CodebaseState) (c : ChangedFiles) :
    c ∈ (checkCodebase fs loc exts st).2 ↔
      c.file_path ∈ walkedFiles fs loc exts ∧
        c.content = fs.readFile c.file_path ∧
        (dictLookup st.files c.file_path = none ∨
          ∃ recorded, dictLookup st.files c.file_path = some recorded ∧
            fs.mtimeOf c.file_path ≠ recorded) := by
  simp only [checkCodebase]
  rw [checkCodebase_walk_flatten, checkFold_changed]
  simp

theorem checkCodebase_deletions_iff (fs : FileSys) (loc : String) (exts : List String)
    (st : CodebaseState) (fp : String) :
    fp ∈ (checkCodebase fs loc exts st).1.deletions ↔
      fp ∈ dictKeys st.files ∧ fs.existsAt fp = false := by
  simp only [checkCodebase]
  rw [checkCodebase_walk_flatten, delFold_mem, checkFold_deletions]
  simp

/-- C1: `check_codebase` classifies every walked matching file absent from the
prior state as an addition with captured content; every walked matching file
present in the prior state whose on-disk mtime differs (exact comparison)
from the recorded one as an update with captured content; a walked matching
file with an unchanged mtime into no set; and, after the walk, every prior
path that does not exist on disk as a deletion with no content entry.  The
hypothesis states the filesystem consistency that the walk only reports
files that exist on disk. -/
theorem checkCodebase_classification (fs : FileSys) (loc : String) (exts : List String)
    (st : CodebaseState)
    (hex : ∀ fp ∈ walkedFiles fs loc exts, fs.existsAt fp = true) :
    (∀ fp ∈ walkedFiles fs loc exts, dictLookup st.files fp = none →
        fp ∈ (checkCodebase fs loc exts st).1.additions ∧
        (⟨fp, fs.readFile fp⟩ : ChangedFiles) ∈ (checkCodebase fs loc exts st).2)
  ∧ (∀ fp ∈ walkedFiles fs loc exts, ∀ recorded,
        dictLookup st.files fp = some recorded → fs.mtimeOf fp ≠ recorded →
        (⟨fp, fs.mtimeOf fp⟩ : FileUpdate) ∈ (checkCodebase fs loc exts st).1.updates ∧
        (⟨fp, fs.readFile fp⟩ : ChangedFiles) ∈ (checkCodebase fs loc exts st).2)
  ∧ (∀ fp ∈ walkedFiles fs loc exts, ∀ recorded,
        dictLookup st.files fp = some recorded → fs.mtimeOf fp = recorded →
        fp ∉ (checkCodebase fs loc exts st).1.additions ∧
        fp ∉ (checkCodebase fs loc exts st).1.deletions ∧
        (∀ t, (⟨fp, t⟩ : FileUpdate) ∉ (checkCodebase fs loc exts st).1.updates))
  ∧ (∀ fp ∈ dictKeys st.files, fs.existsAt fp = false →
        fp ∈ (checkCodebase fs loc exts st).1.deletions ∧
        (∀ ct, (⟨fp, ct⟩ : ChangedFiles) ∉ (checkCodebase fs loc exts st).2)) := by
  refine ⟨?_, ?_, ?_, ?_⟩
  · intro fp hw hnone
    constructor
    · exact (checkCodebase_additions_iff fs loc exts st fp).mpr ⟨hw, hnone⟩
    · exact (checkCodebase_changed_iff fs loc exts st ⟨fp, fs.readFile fp⟩).mpr
        ⟨hw, rfl, Or.inl hnone⟩
  · intro fp hw recorded hrec hne
    constructor
    · exact (checkCodebase_updates_iff fs loc exts st ⟨fp, fs.mtimeOf fp⟩).mpr
        ⟨hw, rfl, recorded, hrec, hne⟩
    · exact (checkCodebase_changed_iff fs loc exts st ⟨fp, fs.readFile fp⟩).mpr
        ⟨hw, rfl, Or.inr ⟨recorded, hrec, hne⟩⟩
  · intro fp hw recorded hrec heq
    refine ⟨?_, ?_, ?_⟩
    · intro hmem
      have := ((checkCodebase_additions_iff fs loc exts st fp).mp hmem).2
      rw [hrec] at this
      cases this
    · intro hmem
      have := ((checkCodebase_deletions_iff fs loc exts st fp).mp hmem).2
      rw [hex fp hw] at this
      cases this
    · intro t hmem
      have := (checkCodebase_updates_iff fs loc exts st ⟨fp, t⟩).mp hmem
      rcases this with ⟨_, _, r, hr, hner⟩
      simp only at hr hner
      rw [hrec] at hr
      cases hr
      exact hner heq
  · intro fp hk hfalse
    constructor
    · exact (checkCodebase_deletions_iff fs loc exts st fp).mpr ⟨hk, hfalse⟩
    · intro ct hmem
      have := ((checkCodebase_changed_iff fs loc exts st ⟨fp, ct⟩).mp hmem).1
      simp only at this
      rw [hex fp this] at hfalse
      cases hfalse

/-- Witness for `checkCodebase_classification`: on the concrete filesystem
`fsW` with an empty prior state, `a.py` is classified as an addition and its
content is captured. -/
theorem checkCodebase_classification_witness :
    "/r/a.py" ∈ (checkCodebase fsW "/r" ["py"] stEmpty).1.additions ∧
      (⟨"/r/a.py", "content"⟩ : ChangedFiles) ∈ (checkCodebase fsW "/r" ["py"] stEmpty).2 :=
  (checkCodebase_classification fsW "/r" ["py"] stEmpty (by decide)).1
    "/r/a.py" (by decide) (by decide)

/-- C7: in every transformation computed by `check_codebase` (over a
filesystem whose walk only reports files that exist on disk), a path appears
in at most one of the sets `additions`, `deletions`, `updates`. -/
theorem checkCodebase_disjoint (fs : FileSys) (loc : String) (exts : List String)
    (st : CodebaseState)
    (hex : ∀ fp ∈ walkedFiles fs loc exts, fs.existsAt fp = true) :
    ∀ fp,
      ¬(fp ∈ (checkCodebase fs loc exts st).1.additions ∧
          fp ∈ (checkCodebase fs loc exts st).1.deletions)
    ∧ ¬(fp ∈ (checkCodebase fs loc exts st).1.additions ∧
          ∃ t, (⟨fp, t⟩ : FileUpdate) ∈ (checkCodebase fs loc exts st).1.updates)
    ∧ ¬(fp ∈ (checkCodebase fs loc exts st).1.deletions ∧
          ∃ t, (⟨fp, t⟩ : FileUpdate) ∈ (checkCodebase fs loc exts st).1.updates) := by
  intro fp
  refine ⟨?_, ?_, ?_⟩
  · rintro ⟨hadd, hdel⟩
    have hnone := ((checkCodebase_additions_iff fs loc exts st fp).mp hadd).2
    have hkeys := ((checkCodebase_deletions_iff fs loc exts st fp).mp hdel).1
    rw [mem_dictKeys_iff] at hkeys
    exact hkeys hnone
  · rintro ⟨hadd, t, hupd⟩
    have hnone := ((checkCodebase_additions_iff fs loc exts st fp).mp hadd).2
    have := (checkCodebase_updates_iff fs loc exts st ⟨fp, t⟩).mp hupd
    rcases this with ⟨_, _, r, hr, _⟩
    simp only at hr
    rw [hnone] at hr
    cases hr
  · rintro ⟨hdel, t, hupd⟩
    have hfalse := ((checkCodebase_deletions_iff fs loc exts st fp).mp hdel).2
    have hw := ((checkCodebase_updates_iff fs loc exts st ⟨fp, t⟩).mp hupd).1
    simp only at hw
    rw [hex fp hw] at hfalse
    cases hfalse

/-- Witness for `checkCodebase_disjoint` on the concrete filesystem `fsW`:
the walked file `a.py` cannot be both an addition and a deletion. -/
theorem checkCodebase_disjoint_witness :
    ¬("/r/a.py" ∈ (checkCodebase fsW "/r" ["py"] stEmpty).1.additions ∧
        "/r/a.py" ∈ (checkCodebase fsW "/r" ["py"] stEmpty).1.deletions) :=
  ((checkCodebase_disjoint fsW "/r" ["py"] stEmpty (by decide)) "/r/a.py").1

theorem loadStep_eq (fs : FileSys) (acc : LoadAcc) (fp : String) :
    loadStep fs acc fp =
      if !(strContains fp "__pycache__") && fs.decodeOk fp then
        ⟨acc.contents ++ fileElement fs fp, true, acc.files ++ [fp]⟩
      else ⟨acc.contents, true, acc.files⟩ := by
  unfold loadStep
  by_cases h1 : strContains fp "__pycache__"
  · simp [h1]
  · by_cases h2 : fs.decodeOk fp = true
    · simp [h1, h2]
    · simp [h1, h2]

theorem loadFold_char (fs : FileSys) :
    ∀ (l : List String) (acc : LoadAcc),
      l.foldl (loadStep fs) acc =
        ⟨acc.contents
            ++ concatList
              ((l.filter (fun fp => !(strContains fp "__pycache__") && fs.decodeOk fp)).map
                (fileElement fs)),
          acc.matched || !l.isEmpty,
          acc.files ++ l.filter (fun fp => !(strContains fp "__pycache__") && fs.decodeOk fp)⟩ := by
  intro l
  induction l with
  | nil =>
    intro acc
    simp [concatList, String.append_empty]
  | cons fp t ih =>
    intro acc
    rw [List.foldl_cons, ih, loadStep_eq]
    by_cases hc : (!(strContains fp "__pycache__") && fs.decodeOk fp) = true
    · rw [if_pos hc]
      simp [List.filter_cons, hc, concatList, LoadAcc.mk.injEq, String.append_assoc,
        List.append_assoc]
    · rw [if_neg hc]
      simp [List.filter_cons, hc, concatList, LoadAcc.mk.injEq]

theorem loadCodebase_walk_flatten (fs : FileSys) (base : String) (exts : List String)
    (init : LoadAcc) :
    (fs.walkFrom base).foldl
      (fun acc entry =>
        entry.2.foldl
          (fun acc fileName =>
            if matchesLoad exts fileName then
              loadStep fs acc (pathJoin entry.1 fileName)
            else acc)
          acc)
      init
      = (loadWalkedMatched fs base exts).foldl (loadStep fs) init := by
  have h1 : (fs.walkFrom base).foldl
      (fun acc entry =>
        entry.2.foldl
          (fun acc fileName =>
            if matchesLoad exts fileName then
              loadStep fs acc (pathJoin entry.1 fileName)
            else acc)
          acc)
      init
      = (fs.walkFrom base).foldl
        (fun acc entry =>
          ((entry.2.filter (matchesLoad exts)).map (pathJoin entry.1)).foldl
            (loadStep fs) acc)
        init := by
    congr 1
    funext acc entry
    exact foldl_names_flatten (matchesLoad exts) (loadStep fs) entry.1 entry.2 acc
  rw [h1]
  exact foldl_flatMap
    (fun entry => (entry.2.filter (matchesLoad exts)).map (pathJoin entry.1))
    (loadStep fs) (fs.walkFrom base) init

theorem loadCodebase_eq (fs : FileSys) (base : String) (exts : List String)
    (hvalid : fs.existsAt base = true ∧ fs.isDir base = true) :
    loadCodebase fs base exts =
      if (loadWalkedMatched fs base exts).isEmpty then .error .noMatchingFiles
      else .ok ⟨renderSubfolder fs base exts, loadIncludedPaths fs base exts⟩ := by
  unfold loadCodebase
  rw [if_neg (by simp [hvalid.1, hvalid.2])]
  rw [loadCodebase_walk_flatten, loadFold_char]
  simp only [Bool.false_or, Bool.not_not]
  by_cases he : (loadWalkedMatched fs base exts).isEmpty = true
  · simp only [if_pos he]
  · simp only [if_neg he]
    unfold renderSubfolder loadIncludedPaths
    rw [List.nil_append]

/-- C4 counterexample: `/d` exists and is a directory, yet with zero matching
files `load_codebase` fails with the no-matching-files error instead of
returning a valid empty snapshot. -/
theorem loadCodebase_zero_matches_counterexample :
    fsC4.existsAt "/d" = true ∧ fsC4.isDir "/d" = true ∧
      loadCodebase fsC4 "/d" [] = .error .noMatchingFiles := by
  refine ⟨rfl, rfl, ?_⟩
  rfl

/-- C4 (amended): building a snapshot fails with the invalid-path error when
the root does not exist or is not a directory, fails with a
no-matching-files error when zero walked file names match the extension
filter, and succeeds otherwise. -/
theorem loadCodebase_failure_modes (fs : FileSys) (base : String) (exts : List String) :
    ((fs.existsAt base && fs.isDir base) = false →
        loadCodebase fs base exts = .error .invalidPath)
  ∧ ((fs.existsAt base && fs.isDir base) = true →
      (loadCodebase fs base exts = .error .noMatchingFiles ↔
        loadWalkedMatched fs base exts = []))
  ∧ ((fs.existsAt base && fs.isDir base) = true → loadWalkedMatched fs base exts ≠ [] →
      ∃ cb, loadCodebase fs base exts = .ok cb) := by
  refine ⟨?_, ?_, ?_⟩
  · intro hinv
    unfold loadCodebase
    rw [if_pos]
    rcases Bool.and_eq_false_iff.mp hinv with hx | hx
    · simp [hx]
    · simp [hx]
  · intro hv
    rw [loadCodebase_eq fs base exts (Bool.and_eq_true _ _ ▸ hv)]
    by_cases he : (loadWalkedMatched fs base exts).isEmpty = true
    · rw [if_pos he]
      simp [List.isEmpty_iff.mp he]
    · rw [if_neg he]
      constructor
      · intro h
        cases h
      · intro h
        exact absurd (by simp [h]) he
  · intro hv hne
    rw [loadCodebase_eq fs base exts (Bool.and_eq_true _ _ ▸ hv)]
    rw [if_neg (by simp [hne])]
    exact ⟨_, rfl⟩

/-- Witness for `loadCodebase_failure_modes`: on the concrete valid directory
`/d` with filter `py`, the result is exactly the no-matching-files error. -/
theorem loadCodebase_failure_modes_witness :
    loadCodebase fsC4 "/d" ["py"] = .error .noMatchingFiles :=
  ((loadCodebase_failure_modes fsC4 "/d" ["py"]).2.1 (by decide)).mpr (by decide)

/-- C3 counterexample: on the concrete filesystem `fsC3`, loading root
`/base` stores the joined path `/base/a.py` — not the path `a.py` relative
to the root — both in the snapshot's path list and in the serialized
`<path>` element. -/
theorem loadCodebase_not_relative_counterexample :
    loadCodebase fsC3 "/base" ["py"] = .ok cbC3 ∧
      cbC3.file_paths = ["/base/a.py"] ∧ ("/base/a.py" : String) ≠ "a.py" ∧
      strContains cbC3.concatenated_contents "<path>/base/a.py</path>" = true := by
  refine ⟨?_, rfl, by decide, by decide⟩
  rfl

/-- C3 (amended): every path stored in the snapshot built by walking the
root, and every path emitted inside a `<path>` element, is the file's
walk-root-joined path (the base path prefix is retained); paths are NOT
relativized to the root. -/
theorem loadCodebase_paths_joined (fs : FileSys) (base : String) (exts : List String)
    (cb : Codebase) (h : loadCodebase fs base exts = .ok cb) :
    cb.file_paths = loadIncludedPaths fs base exts ∧
      cb.concatenated_contents = renderSubfolder fs base exts := by
  by_cases hv : (fs.existsAt base && fs.isDir base) = true
  · rw [loadCodebase_eq fs base exts (Bool.and_eq_true _ _ ▸ hv)] at h
    by_cases he : (loadWalkedMatched fs base exts).isEmpty = true
    · rw [if_pos he] at h
      cases h
    · rw [if_neg he] at h
      injection h with h'
      subst h'
      exact ⟨rfl, rfl⟩
  · have hinv := (loadCodebase_failure_modes fs base exts).1 (by
      cases hx : (fs.existsAt base && fs.isDir base)
      · rfl
      · exact absurd hx hv)
    rw [hinv] at h
    cases h

/-- Witness for `loadCodebase_paths_joined` on the concrete filesystem
`fsC3`: the stored path list is exactly the joined-path list. -/
theorem loadCodebase_paths_joined_witness :
    cbC3.file_paths = loadIncludedPaths fsC3 "/base" ["py"] :=
  (loadCodebase_paths_joined fsC3 "/base" ["py"] cbC3 (by rfl)).1

theorem foldl_zip_zipWith {α β γ δ : Type} (g : α → β → δ) (f : γ → δ → γ) :
    ∀ (as : List α) (bs : List β) (acc : γ),
      (List.zipWith g as bs).foldl f acc
        = (as.zip bs).foldl (fun acc ab => f acc (g ab.1 ab.2)) acc := by
  intro as
  induction as with
  | nil => intro bs acc; cases bs <;> rfl
  | cons a ta ih =>
    intro bs acc
    cases bs with
    | nil => rfl
    | cons b tb => simp [List.zip_cons_cons, ih]

/-- C5 counterexample: `check_codebases` does not honour a per-root extension
filter; on `fsC5` with filter `py` for root `/r` the spec-side diff reports
no changes, while the code includes the non-matching `b.txt`. -/
theorem checkCodebases_counterexample :
    checkCodebases fsC5 ["/r"] [stEmpty]
        ≠ checkCodebasesSpec fsC5 [("/r", ["py"], stEmpty)] ∧
      (checkCodebases fsC5 ["/r"] [stEmpty]).1 = "Codebase: /r\nAdded files:\n- /r/b.txt" ∧
      (checkCodebasesSpec fsC5 [("/r", ["py"], stEmpty)]).1 = "Codebase: /r" := by
  refine ⟨by decide, rfl, rfl⟩

/-- C5 (amended): `check_codebases` takes only root locations and prior
states; it runs the single-codebase diff per root with the EMPTY extension
filter (treating all files as matching), concatenates the results, and
labels each root's summary with its root path — i.e. it agrees with the
spec-side multi-codebase diff exactly when every root's filter is empty. -/
theorem checkCodebases_ignores_filters (fs : FileSys) (locs : List String)
    (states : List CodebaseState) :
    checkCodebases fs locs states
      = checkCodebasesSpec fs
          (List.zipWith (fun loc st => (loc, ([] : List String), st)) locs states) := by
  unfold checkCodebases checkCodebasesSpec
  rw [foldl_zip_zipWith]

/-- C6: whenever the model call of the CURRENT turn fails with a connection
or timeout error — at any loop state the turn loop can be in, i.e. on any of
the up-to-ten turns, including after successful continuation turns —
`gather_ai_responses` aborts immediately and returns `None` together with
the message list as it stands (no retry: the result does not depend on the
oracle at any later turn); in particular a failure on the very first turn
returns the caller's input message list unmodified. -/
theorem gather_transport_error (send : Nat → SendResult)
    (parse : List String → Bool → ParseResult) :
    (∀ (turnsLeft turnIdx : Nat) (responses : List String) (concatenated : String)
        (messages : List ChatMessage),
        send turnIdx = .connectionError ∨ send turnIdx = .timeoutError →
        gatherGo send parse (turnsLeft + 1) turnIdx responses concatenated messages
          = (none, messages))
  ∧ (∀ messages : List ChatMessage,
        send 0 = .connectionError ∨ send 0 = .timeoutError →
        gatherAiResponses send parse messages = (none, messages)) := by
  have h1 : ∀ (turnsLeft turnIdx : Nat) (responses : List String) (concatenated : String)
      (messages : List ChatMessage),
      send turnIdx = .connectionError ∨ send turnIdx = .timeoutError →
      gatherGo send parse (turnsLeft + 1) turnIdx responses concatenated messages
        = (none, messages) := by
    intro turnsLeft turnIdx responses concatenated messages h
    rcases h with h | h <;> simp [gatherGo, h]
  exact ⟨h1, fun messages h => h1 9 0 [] "" messages h⟩

/-- Witness for `gather_transport_error` at a SECOND-turn failure: the first
call succeeds with `A` and the parse is unfinished, so the loop continues;
the timeout on the second call then aborts the whole run with `None` and the
once-continued message list (no retry on a later turn). -/
theorem gather_transport_error_witness :
    gatherAiResponses sendOkThenErr parseNever msgsTwo
      = (none, [⟨"user", "hi"⟩, ⟨"assistant", "A"⟩]) := by
  have h := (gather_transport_error sendOkThenErr parseNever).1 8 1 ["A"] ""
    [⟨"user", "hi"⟩, ⟨"assistant", "A"⟩] (Or.inr rfl)
  calc gatherAiResponses sendOkThenErr parseNever msgsTwo
      = gatherGo sendOkThenErr parseNever 9 1 ["A"] ""
          [⟨"user", "hi"⟩, ⟨"assistant", "A"⟩] := rfl
    _ = (none, [⟨"user", "hi"⟩, ⟨"assistant", "A"⟩]) := h

/-- C2 at the failing input: ten turns each answering the non-empty text `A`
with the parser never finishing exhaust the 10-turn budget;
`gather_ai_responses` returns a result (no exception) with
`file_data_list = []`, but its `content_string` is the EMPTY string — the
concatenated raw text of the ten turns (which is non-empty) is lost, because
`concatenated_responses` is only assigned inside the returning branch. -/
theorem gather_turn_limit_empty_content :
    gatherAiResponses sendAlwaysA parseNever msgsTwo
        = (some ⟨"", []⟩, [⟨"user", "hi"⟩, ⟨"assistant", "AAAAAAAAAA"⟩]) ∧
      sepJoin turnSeparator (List.replicate 10 "A") ≠ "" := by
  refine ⟨rfl, by decide⟩

theorem writeFileStep_shape (outputDir : String) (force : Bool) (st : WriteState)
    (fd : FileData) :
    ((writeFileStep outputDir force st fd).written = st.written ∧
        (writeFileStep outputDir force st fd).skipped
          = st.skipped ++ [pathJoin outputDir (baseName fd.relative_path)] ∧
        (writeFileStep outputDir force st fd).count = st.count)
    ∨ ((writeFileStep outputDir force st fd).written
          = st.written
            ++ [(pathJoin outputDir (baseName fd.relative_path), xmlUnescape fd.file_contents)] ∧
        (writeFileStep outputDir force st fd).skipped = st.skipped ∧
        (writeFileStep outputDir force st fd).count = st.count + 1) := by
  simp only [writeFileStep]
  by_cases hd : outputDir ∈ st.existing
  · rw [if_pos hd]
    by_cases hsk : (force = false ∧ pathJoin outputDir (baseName fd.relative_path) ∈ st.existing)
    · rw [if_pos hsk]
      left
      exact ⟨rfl, rfl, rfl⟩
    · rw [if_neg hsk]
      right
      exact ⟨rfl, rfl, rfl⟩
  · rw [if_neg hd]
    by_cases hsk : (force = false ∧
        pathJoin outputDir (baseName fd.relative_path) ∈ insSet st.existing outputDir)
    · rw [if_pos hsk]
      left
      exact ⟨rfl, rfl, rfl⟩
    · rw [if_neg hsk]
      right
      exact ⟨rfl, rfl, rfl⟩

theorem writeFold_extend (outputDir : String) (force : Bool) :
    ∀ (l : List FileData) (st : WriteState),
      ∃ w s, (l.foldl (writeFileStep outputDir force) st).written = st.written ++ w ∧
        (l.foldl (writeFileStep outputDir force) st).skipped = st.skipped ++ s ∧
        (l.foldl (writeFileStep outputDir force) st).count = st.count + w.length ∧
        w.length + s.length = l.length := by
  intro l
  induction l with
  | nil =>
    intro st
    exact ⟨[], [], by simp, by simp, by simp, rfl⟩
  | cons fd t ih =>
    intro st
    rw [List.foldl_cons]
    obtain ⟨w, s, hw, hs, hc, hl⟩ := ih (writeFileStep outputDir force st fd)
    rcases writeFileStep_shape outputDir force st fd with ⟨h1, h2, h3⟩ | ⟨h1, h2, h3⟩
    · refine ⟨w, pathJoin outputDir (baseName fd.relative_path) :: s, ?_, ?_, ?_, ?_⟩
      · rw [hw, h1]
      · rw [hs, h2]
        simp
      · rw [hc, h3]
      · simp only [List.length_cons]
        omega
    · refine ⟨(pathJoin outputDir (baseName fd.relative_path), xmlUnescape fd.file_contents) :: w,
        s, ?_, ?_, ?_, ?_⟩
      · rw [hw, h1]
        simp
      · rw [hs, h2]
      · rw [hc, h3]
        simp only [List.length_cons]
        omega
      · simp only [List.length_cons]
        omega

theorem writeFileStep_force_no_skip (outputDir : String) (st : WriteState) (fd : FileData) :
    (writeFileStep outputDir true st fd).skipped = st.skipped := by
  simp only [writeFileStep]
  have hsk : ¬(true = false ∧
      pathJoin outputDir (baseName fd.relative_path)
        ∈ (if outputDir ∈ st.existing then st
            else { st with existing := insSet st.existing outputDir }).existing) := by
    rintro ⟨h, _⟩
    cases h
  rw [if_neg hsk]
  by_cases hd : outputDir ∈ st.existing
  · rw [if_pos hd]
  · rw [if_neg hd]

theorem writeFold_force_no_skip (outputDir : String) :
    ∀ (l : List FileData) (st : WriteState),
      (l.foldl (writeFileStep outputDir true) st).skipped = st.skipped := by
  intro l
  induction l with
  | nil => intro st; rfl
  | cons fd t ih =>
    intro st
    rw [List.foldl_cons, ih, writeFileStep_force_no_skip]

theorem writeFileStep_existing_mono (outputDir : String) (force : Bool) (st : WriteState)
    (fd : FileData) :
    ∀ p ∈ st.existing, p ∈ (writeFileStep outputDir force st fd).existing := by
  intro p hp
  simp only [writeFileStep]
  by_cases hd : outputDir ∈ st.existing
  · rw [if_pos hd]
    by_cases hsk : (force = false ∧ pathJoin outputDir (baseName fd.relative_path) ∈ st.existing)
    · rw [if_pos hsk]
      exact hp
    · rw [if_neg hsk]
      exact (mem_insSet _ _ _).mpr (Or.inl hp)
  · rw [if_neg hd]
    by_cases hsk : (force = false ∧
        pathJoin outputDir (baseName fd.relative_path) ∈ insSet st.existing outputDir)
    · rw [if_pos hsk]
      exact (mem_insSet _ _ _).mpr (Or.inl hp)
    · rw [if_neg hsk]
      exact (mem_insSet _ _ _).mpr (Or.inl ((mem_insSet _ _ _).mpr (Or.inl hp)))

theorem writeFileStep_fresh (outputDir : String) (st : WriteState) (fd : FileData)
    (hnd : (st.written.map Prod.fst).Nodup)
    (hsub : ∀ p ∈ st.written.map Prod.fst, p ∈ st.existing) :
    ((writeFileStep outputDir false st fd).written.map Prod.fst).Nodup
  ∧ (∀ p ∈ (writeFileStep outputDir false st fd).written.map Prod.fst,
        p ∈ (writeFileStep outputDir false st fd).existing)
  ∧ (∀ p ∈ (writeFileStep outputDir false st fd).written.map Prod.fst,
        p ∈ st.written.map Prod.fst ∨ p ∉ st.existing) := by
  simp only [writeFileStep]
  by_cases hd : outputDir ∈ st.existing
  · rw [if_pos hd]
    by_cases hsk : pathJoin outputDir (baseName fd.relative_path) ∈ st.existing
    · rw [if_pos (And.intro trivial hsk)]
      exact ⟨hnd, hsub, fun p hp => Or.inl hp⟩
    · rw [if_neg (fun h => hsk h.2)]
      have hout' : pathJoin outputDir (baseName fd.relative_path) ∉ st.written.map Prod.fst :=
        fun hm => hsk (hsub _ hm)
      refine ⟨?_, ?_, ?_⟩
      · simp only [List.map_append, List.map_cons, List.map_nil]
        simp [List.nodup_append, hnd, hout']
      · intro p hp
        simp only [List.map_append, List.map_cons, List.map_nil] at hp
        rcases List.mem_append.mp hp with hm | hm
        · exact (mem_insSet _ _ _).mpr (Or.inl (hsub p hm))
        · simp at hm
          exact (mem_insSet _ _ _).mpr (Or.inr hm)
      · intro p hp
        simp only [List.map_append, List.map_cons, List.map_nil] at hp
        rcases List.mem_append.mp hp with hm | hm
        · exact Or.inl hm
        · simp at hm
          subst hm
          exact Or.inr hsk
  · rw [if_neg hd]
    by_cases hsk : pathJoin outputDir (baseName fd.relative_path) ∈ insSet st.existing outputDir
    · rw [if_pos (And.intro trivial hsk)]
      refine ⟨hnd, ?_, fun p hp => Or.inl hp⟩
      intro p hp
      exact (mem_insSet _ _ _).mpr (Or.inl (hsub p hp))
    · rw [if_neg (fun h => hsk h.2)]
      have hout0 : pathJoin outputDir (baseName fd.relative_path) ∉ st.existing :=
        fun hm => hsk ((mem_insSet _ _ _).mpr (Or.inl hm))
      have hout' : pathJoin outputDir (baseName fd.relative_path) ∉ st.written.map Prod.fst :=
        fun hm => hout0 (hsub _ hm)
      refine ⟨?_, ?_, ?_⟩
      · simp only [List.map_append, List.map_cons, List.map_nil]
        simp [List.nodup_append, hnd, hout']
      · intro p hp
        simp only [List.map_append, List.map_cons, List.map_nil] at hp
        rcases List.mem_append.mp hp with hm | hm
        · exact (mem_insSet _ _ _).mpr (Or.inl ((mem_insSet _ _ _).mpr (Or.inl (hsub p hm))))
        · simp at hm
          exact (mem_insSet _ _ _).mpr (Or.inr hm)
      · intro p hp
        simp only [List.map_append, List.map_cons, List.map_nil] at hp
        rcases List.mem_append.mp hp with hm | hm
        · exact Or.inl hm
        · simp at hm
          subst hm
          exact Or.inr hout0

theorem writeFold_fresh (outputDir : String) :
    ∀ (l : List FileData) (st : WriteState),
      (st.written.map Prod.fst).Nodup →
      (∀ p ∈ st.written.map Prod.fst, p ∈ st.existing) →
      ((l.foldl (writeFileStep outputDir false) st).written.map Prod.fst).Nodup
    ∧ (∀ p ∈ (l.foldl (writeFileStep outputDir false) st).written.map Prod.fst,
          p ∈ (l.foldl (writeFileStep outputDir false) st).existing)
    ∧ (∀ p ∈ (l.foldl (writeFileStep outputDir false) st).written.map Prod.fst,
          p ∈ st.written.map Prod.fst ∨ p ∉ st.existing) := by
  intro l
  induction l with
  | nil =>
    intro st hnd hsub
    exact ⟨hnd, hsub, fun p hp => Or.inl hp⟩
  | cons fd t ih =>
    intro st hnd hsub
    rw [List.foldl_cons]
    obtain ⟨nd1, sub1, new1⟩ := writeFileStep_fresh outputDir st fd hnd hsub
    obtain ⟨ndF, subF, newF⟩ := ih (writeFileStep outputDir false st fd) nd1 sub1
    refine ⟨ndF, subF, ?_⟩
    intro p hp
    rcases newF p hp with hm | hnot
    · exact new1 p hm
    · right
      intro hmem
      exact hnot (writeFileStep_existing_mono outputDir false st fd p hmem)

/-- C9: `write_files` writes a target file only when it does not already
exist or the force flag is set; an existing target with force unset is
skipped without aborting the batch (every entry is either written or
skipped), and the returned count equals the number of files actually
written. -/
theorem writeFiles_spec (existing0 : List String) (outputDir : String)
    (fileData : List FileData) (force : Bool) :
    (writeFiles existing0 outputDir fileData force).count
        = (writeFiles existing0 outputDir fileData force).written.length
  ∧ (writeFiles existing0 outputDir fileData force).written.length
        + (writeFiles existing0 outputDir fileData force).skipped.length
      = fileData.length
  ∧ (force = false →
      (∀ p ∈ (writeFiles existing0 outputDir fileData force).written.map Prod.fst,
          p ∉ existing0)
        ∧ ((writeFiles existing0 outputDir fileData force).written.map Prod.fst).Nodup)
  ∧ (force = true → (writeFiles existing0 outputDir fileData force).skipped = []) := by
  obtain ⟨w, s, hw, hs, hc, hl⟩ :=
    writeFold_extend outputDir force fileData ⟨existing0, [], [], 0⟩
  unfold writeFiles
  refine ⟨?_, ?_, ?_, ?_⟩
  · rw [hw, hc]
    simp
  · rw [hw, hs]
    simp only [List.length_append]
    simp [hl]
  · intro hf
    subst hf
    have hfr := writeFold_fresh outputDir fileData ⟨existing0, [], [], 0⟩ (by simp) (by simp)
    constructor
    · intro p hp
      rcases hfr.2.2 p hp with hmem | hnot
      · simp at hmem
      · exact hnot
    · exact hfr.1
  · intro hf
    subst hf
    rw [writeFold_force_no_skip]

/-- Witness for `writeFiles_spec`: with one entry against a pre-existing
target and force unset, written plus skipped account for the whole batch. -/
theorem writeFiles_spec_witness :
    (writeFiles ["out/x.py"] "out" [⟨"a/x.py", "c1", "d1"⟩] false).written.length
        + (writeFiles ["out/x.py"] "out" [⟨"a/x.py", "c1", "d1"⟩] false).skipped.length = 1 :=
  (writeFiles_spec ["out/x.py"] "out" [⟨"a/x.py", "c1", "d1"⟩] false).2.1

theorem pathJoin_ne (root name : String) : pathJoin root name ≠ root := by
  intro h
  have hlen := congrArg String.length h
  unfold pathJoin at hlen
  rw [String.length_append, String.length_append] at hlen
  have h1 : ("/" : String).length = 1 := rfl
  rw [h1] at hlen
  omega

/-- C10: `write_files` joins the output directory with only the BASENAME of
each proposed relative path (directory components are discarded), so two
entries whose paths share a basename target the same output file; with force
unset the later entry is skipped, with force set both are written. -/
theorem writeFiles_basename_collision (existing0 : List String) (outputDir : String)
    (p1 p2 c1 c2 d1 d2 : String)
    (hbase : baseName p1 = baseName p2)
    (hfresh : pathJoin outputDir (baseName p1) ∉ existing0) :
    (writeFiles existing0 outputDir [⟨p1, c1, d1⟩, ⟨p2, c2, d2⟩] false).written
        = [(pathJoin outputDir (baseName p1), xmlUnescape c1)]
  ∧ (writeFiles existing0 outputDir [⟨p1, c1, d1⟩, ⟨p2, c2, d2⟩] false).skipped
        = [pathJoin outputDir (baseName p1)]
  ∧ (writeFiles existing0 outputDir [⟨p1, c1, d1⟩, ⟨p2, c2, d2⟩] true).written
        = [(pathJoin outputDir (baseName p1), xmlUnescape c1),
            (pathJoin outputDir (baseName p1), xmlUnescape c2)] := by
  have hne := pathJoin_ne outputDir (baseName p1)
  have hd2 : outputDir ∈ insSet
      (if outputDir ∈ existing0 then existing0 else insSet existing0 outputDir)
      (pathJoin outputDir (baseName p1)) := by
    refine (mem_insSet _ _ _).mpr (Or.inl ?_)
    by_cases hd : outputDir ∈ existing0
    · rw [if_pos hd]
      exact hd
    · rw [if_neg hd]
      exact (mem_insSet _ _ _).mpr (Or.inr rfl)
  have hstep1 : writeFileStep outputDir false ⟨existing0, [], [], 0⟩ ⟨p1, c1, d1⟩
      = ⟨insSet (if outputDir ∈ existing0 then existing0 else insSet existing0 outputDir)
            (pathJoin outputDir (baseName p1)),
          [(pathJoin outputDir (baseName p1), xmlUnescape c1)], [], 1⟩ := by
    simp only [writeFileStep]
    by_cases hd : outputDir ∈ existing0
    · simp [hd, hfresh]
    · have hsk : pathJoin outputDir (baseName p1) ∉ insSet existing0 outputDir := by
        intro hm
        rcases (mem_insSet _ _ _).mp hm with hm0 | hm0
        · exact hfresh hm0
        · exact hne hm0
      simp [hd, hsk]
  have hstep2 : writeFileStep outputDir false
        ⟨insSet (if outputDir ∈ existing0 then existing0 else insSet existing0 outputDir)
            (pathJoin outputDir (baseName p1)),
          [(pathJoin outputDir (baseName p1), xmlUnescape c1)], [], 1⟩ ⟨p2, c2, d2⟩
      = ⟨insSet (if outputDir ∈ existing0 then existing0 else insSet existing0 outputDir)
            (pathJoin outputDir (baseName p1)),
          [(pathJoin outputDir (baseName p1), xmlUnescape c1)],
          [pathJoin outputDir (baseName p1)], 1⟩ := by
    simp only [writeFileStep]
    rw [← hbase]
    rw [if_pos hd2]
    have hsk2 : pathJoin outputDir (baseName p1) ∈ insSet
        (if outputDir ∈ existing0 then existing0 else insSet existing0 outputDir)
        (pathJoin outputDir (baseName p1)) := (mem_insSet _ _ _).mpr (Or.inr rfl)
    rw [if_pos (And.intro trivial hsk2)]
    simp
  have hstep1t : writeFileStep outputDir true ⟨existing0, [], [], 0⟩ ⟨p1, c1, d1⟩
      = ⟨insSet (if outputDir ∈ existing0 then existing0 else insSet existing0 outputDir)
            (pathJoin outputDir (baseName p1)),
          [(pathJoin outputDir (baseName p1), xmlUnescape c1)], [], 1⟩ := by
    simp only [writeFileStep]
    by_cases hd : outputDir ∈ existing0
    · simp [hd]
    · simp [hd]
  have hstep2t : writeFileStep outputDir true
        ⟨insSet (if outputDir ∈ existing0 then existing0 else insSet existing0 outputDir)
            (pathJoin outputDir (baseName p1)),
          [(pathJoin outputDir (baseName p1), xmlUnescape c1)], [], 1⟩ ⟨p2, c2, d2⟩
      = ⟨insSet (insSet
            (if outputDir ∈ existing0 then existing0 else insSet existing0 outputDir)
            (pathJoin outputDir (baseName p1))) (pathJoin outputDir (baseName p1)),
          [(pathJoin outputDir (baseName p1), xmlUnescape c1),
            (pathJoin outputDir (baseName p1), xmlUnescape c2)], [], 2⟩ := by
    simp only [writeFileStep]
    rw [← hbase]
    rw [if_pos hd2]
    simp
  refine ⟨?_, ?_, ?_⟩
  · unfold writeFiles
    simp only [List.foldl_cons, List.foldl_nil]
    rw [hstep1, hstep2]
  · unfold writeFiles
    simp only [List.foldl_cons, List.foldl_nil]
    rw [hstep1, hstep2]
  · unfold writeFiles
    simp only [List.foldl_cons, List.foldl_nil]
    rw [hstep1t, hstep2t]

/-- Witness for `writeFiles_basename_collision`: `a/x.py` and `b/x.py` share
the basename `x.py`, so only the first is written into `out`. -/
theorem writeFiles_basename_collision_witness :
    (writeFiles [] "out" [⟨"a/x.py", "c1", "d1"⟩, ⟨"b/x.py", "c2", "d2"⟩] false).written
        = [(pathJoin "out" (baseName "a/x.py"), xmlUnescape "c1")] :=
  (writeFiles_basename_collision [] "out" "a/x.py" "b/x.py" "c1" "c2" "d1" "d2"
    (by decide) (by decide)).1
